import Mathlib

/-!
# CCFF container format: a shallow embedding of `calypso_filety::ccff`

This file embeds the CCFF container engine of `src/libs/calypso_filety/src/ccff.rs`
into Lean and proves (or refutes) the specified properties of its mutation API,
its `size`/`encode_to`/`encode` serializers and its `decode` parser.

Modelling conventions:
* Rust `u8`/`u16`/`u32` values are `Nat`; wherever the Rust code narrows or
  wraps (an `as u8`/`as u32` cast, `u32` addition inside `encode_to`'s fold),
  the embedding takes the remainder modulo `2^8`/`2^32` explicitly.
* Section names are Rust `String`s validated to printable ASCII; they are
  modelled as byte lists (`List Nat`).  On UTF-8 input the character test
  `chars().all(|c| c.is_ascii_graphic())` holds exactly when every byte lies
  in `0x21 ..= 0x7E`, since every byte of a multi-byte character is `≥ 0x80`.
* The `IndexMap<String, Section>` is modelled as an association list
  (`List (List Nat × Section)`) with `IndexMap::insert` semantics (replace in
  place, or append when the key is new) and `shift_remove` semantics.
* A Rust `panic!`/`assert!` failure is a call that produces no result: the
  fallible operations return `Option`, with `none` for the panicking runs.
  `ContainerFile.add_section_run` additionally returns the container state
  observable after the call, mirroring the statement order of the source
  (all three asserts precede the single mutating `insert`).
-/

namespace Ccff

/-- A CCFF section (`struct Section` in `ccff.rs`): a type tag, flags, an
optional data offset (populated only by `decode`) and the raw data bytes. -/
structure Section where
  stype : Nat
  flags : Nat
  offset : Option Nat
  data : List Nat
deriving DecidableEq, Repr

/-- Rust `Section::new(stype, flags)`: fresh section, no offset, empty data. -/
def Section.new (stype flags : Nat) : Section :=
  { stype := stype, flags := flags, offset := none, data := [] }

/-- Rust `Section::set_data`, i.e. `mem::replace(&mut self.data, data)`:
returns the previous data together with the updated section. -/
def Section.set_data (s : Section) (data : List Nat) : List Nat × Section :=
  (s.data, { s with data := data })

/-- Rust `Section::get_data`. -/
def Section.get_data (s : Section) : List Nat :=
  s.data

/-- Rust `Section::get_offset`. -/
def Section.get_offset (s : Section) : Option Nat :=
  s.offset

/-- Rust `Section::sizeof(name)`: bytes of one section header —
type (1) + flags (4) + offset (4) + size (4) + name length (1) + name. -/
def Section.sizeof (name : List Nat) : Nat :=
  1 + 4 + 4 + 4 + 1 + name.length

/-- A CCFF container file (`struct ContainerFile`): ABI version, file type and
the ordered name → section map. -/
structure ContainerFile where
  abiver : Nat
  filety : Nat
  sections : List (List Nat × Section)
deriving DecidableEq, Repr

/-- Rust `ContainerFile::new(abiver, filety)`: empty section map. -/
def ContainerFile.new (abiver filety : Nat) : ContainerFile :=
  { abiver := abiver, filety := filety, sections := [] }

/-- Rust `IndexMap::insert`: replace the value in place when the key is present
(returning the displaced value), append at the end when it is new. -/
def mapInsert : List (List Nat × Section) → List Nat → Section →
    List (List Nat × Section) × Option Section
  | [], k, v => ([(k, v)], none)
  | (k', v') :: rest, k, v =>
    if k' = k then ((k, v) :: rest, some v')
    else ((k', v') :: (mapInsert rest k v).1, (mapInsert rest k v).2)

/-- Rust `IndexMap::shift_remove`: remove the entry for the key, if any, keeping the
relative order of the remaining entries. -/
def mapRemove : List (List Nat × Section) → List Nat →
    List (List Nat × Section) × Option Section
  | [], _ => ([], none)
  | (k', v') :: rest, k =>
    if k' = k then (rest, some v')
    else ((k', v') :: (mapRemove rest k).1, (mapRemove rest k).2)

/-- The byte test corresponding to `char::is_ascii_graphic`: `0x21 ..= 0x7E`. -/
def graphicByte (b : Nat) : Bool :=
  decide (0x21 ≤ b) && decide (b ≤ 0x7E)

/-- Rust `ContainerFile::add_section`, statement by statement.  The source runs
three `assert!`s — name length `≤ 255`, all name characters printable ASCII,
section count `≤ 255` — and only then calls `self.sections.insert`.  The
result pairs the container state observable after the call with the outcome:
`none` when one of the asserts panicked (the state is then whatever it was
when the panic fired), `some old` on success. -/
def ContainerFile.add_section_run (cf : ContainerFile) (name : List Nat)
    (s : Section) : ContainerFile × Option (Option Section) :=
  if ¬ name.length ≤ 255 then (cf, none)
  else if ¬ name.all graphicByte then (cf, none)
  else if ¬ cf.sections.length ≤ 255 then (cf, none)
  else
    let r := mapInsert cf.sections name s
    ({ cf with sections := r.1 }, some r.2)

/-- Rust `ContainerFile::add_section` as a fallible operation: `none` models the
panicking runs, `some (cf', old)` the successful ones. -/
def ContainerFile.add_section (cf : ContainerFile) (name : List Nat)
    (s : Section) : Option (ContainerFile × Option Section) :=
  match cf.add_section_run name s with
  | (_, none) => none
  | (cf', some old) => some (cf', old)

/-- Rust `ContainerFile::remove_section`: `shift_remove` on the section map. -/
def ContainerFile.remove_section (cf : ContainerFile) (name : List Nat) :
    ContainerFile × Option Section :=
  let r := mapRemove cf.sections name
  ({ cf with sections := r.1 }, r.2)

/-- Rust `ContainerFile::get_section`. -/
def ContainerFile.get_section (cf : ContainerFile) (name : List Nat) :
    Option Section :=
  (cf.sections.find? (fun p => p.1 = name)).map Prod.snd

/-- Rust `ContainerFile::size`: 4 magic bytes + 2 (abiver) + 1 (filety) +
1 (section count) + the section headers + the section data. -/
def ContainerFile.size (cf : ContainerFile) : Nat :=
  4 + 2 + 1 + 1
    + (cf.sections.map (fun p => Section.sizeof p.1)).sum
    + (cf.sections.map (fun p => p.2.data.length)).sum

/-- Little-endian bytes of `u16::to_le_bytes`. -/
def u16le (n : Nat) : List Nat :=
  [n % 256, n / 256 % 256]

/-- Little-endian bytes of `u32::to_le_bytes`. -/
def u32le (n : Nat) : List Nat :=
  [n % 256, n / 256 % 256, n / 256 ^ 2 % 256, n / 256 ^ 3 % 256]

/-- The fold inside `ContainerFile::encode_to`.  State: the output buffer so
far, the deferred data blob, and the running `u32` data offset.  Each section
asserts `data.len() < u32::MAX` (panic modelled as `none`), appends its data
to the blob, appends its header — type, flags, offset, size, name length,
name — to the buffer, and advances the offset by the data length in wrapping
`u32` arithmetic. -/
def encodeFold : List (List Nat × Section) → List Nat × List Nat × Nat →
    Option (List Nat × List Nat × Nat)
  | [], st => some st
  | (name, s) :: rest, (buf, blob, off) =>
    if s.data.length < 2 ^ 32 - 1 then
      encodeFold rest
        (buf ++ [s.stype % 256] ++ u32le s.flags ++ u32le off
             ++ u32le s.data.length ++ [name.length % 256] ++ name,
         blob ++ s.data,
         (off + s.data.length) % 2 ^ 32)
    else none

/-- Rust `ContainerFile::encode_to(self, buf)`: push the magic `"CCFF"`, the
little-endian ABI version, the file type byte and the section count byte
(`len() as u8`), then fold over the sections starting with data offset
`(buf.len() + shdrs_size) as u32`, and finally append the data blob. -/
def ContainerFile.encode_to (cf : ContainerFile) (buf : List Nat) :
    Option (List Nat) :=
  let buf1 := buf ++ [0x43, 0x43, 0x46, 0x46] ++ u16le cf.abiver
      ++ [cf.filety % 256] ++ [cf.sections.length % 256]
  let shdrs := (cf.sections.map (fun p => Section.sizeof p.1)).sum
  match encodeFold cf.sections (buf1, [], (buf1.length + shdrs) % 2 ^ 32) with
  | some (buf2, blob, _) => some (buf2 ++ blob)
  | none => none

/-- Rust `ContainerFile::encode`: `encode_to` into a fresh buffer. -/
def ContainerFile.encode (cf : ContainerFile) : Option (List Nat) :=
  cf.encode_to []

/-- Little-endian read of two bytes at position `i` (with `getD _ 0`). -/
def readU16LE (buf : List Nat) (i : Nat) : Nat :=
  buf.getD i 0 + 256 * buf.getD (i + 1) 0

/-- Little-endian read of four bytes at position `i` (with `getD _ 0`). -/
def readU32LE (buf : List Nat) (i : Nat) : Nat :=
  buf.getD i 0 + 256 * buf.getD (i + 1) 0
    + 256 ^ 2 * buf.getD (i + 2) 0 + 256 ^ 3 * buf.getD (i + 3) 0

/-- The value of four little-endian bytes. -/
def leVal4 (b0 b1 b2 b3 : Nat) : Nat :=
  b0 + 256 * b1 + 256 ^ 2 * b2 + 256 ^ 3 * b3

/-- The value of two little-endian bytes. -/
def leVal2 (b0 b1 : Nat) : Nat :=
  b0 + 256 * b1

/-- Modelled from the spec: the header scan of the CCFF parser
(`ccff/parse.rs`, absent from the sources; spec §4.2 step 5, §4.3 steps 3–5).
A cursor parser over the unread suffix of the buffer: each of the `count`
headers is type (1), flags (4, LE), data offset (4, LE), data length (4, LE),
name length (1), then that many name bytes, with a bounds check before every
read (a header needs 14 fixed bytes plus the name); the section's data is the
`(offset, length)` slice of the whole buffer, which must lie inside it
(§4.3 step 4 — offsets are trusted, not required to be increasing or
disjoint). -/
def parseHeaders (buf : List Nat) : Nat → List Nat →
    Option (List (List Nat × Section))
  | 0, _ => some []
  | count + 1, t :: f0 :: f1 :: f2 :: f3 :: o0 :: o1 :: o2 :: o3
      :: l0 :: l1 :: l2 :: l3 :: nl :: r =>
    if nl ≤ r.length then
      if leVal4 o0 o1 o2 o3 + leVal4 l0 l1 l2 l3 ≤ buf.length then
        (parseHeaders buf count (r.drop nl)).map
          (fun rest =>
            (r.take nl,
             { stype := t, flags := leVal4 f0 f1 f2 f3,
               offset := some (leVal4 o0 o1 o2 o3),
               data := (buf.drop (leVal4 o0 o1 o2 o3)).take
                 (leVal4 l0 l1 l2 l3) }) :: rest)
      else none
    else none
  | _ + 1, _ => none

/-- Modelled from the spec: duplicate names collapse through the ordered map,
keeping the last-inserted value (spec §4.3 step 6) — the parsed sections are
inserted into the ordered map one by one, in file order. -/
def collectSections (parsed : List (List Nat × Section)) :
    List (List Nat × Section) :=
  parsed.foldl (fun acc p => (mapInsert acc p.1 p.2).1) []

/-- Modelled from the spec: `ContainerFile::decode` (the `container_file`
parser of `ccff/parse.rs`, absent from the sources; spec §4.3 and the §6
layout table).  Requires the 8-byte preamble — a buffer shorter than 8 bytes
is malformed (§4.3 step 1), the magic must be `"CCFF"` (step 2) — then parses
`count` headers from the following bytes and reconstructs the ordered section
map; trailing bytes after the parsed region are ignored (`decode` keeps only
the parsed value). -/
def ContainerFile.decode (buf : List Nat) : Option ContainerFile :=
  match buf with
  | m0 :: m1 :: m2 :: m3 :: a0 :: a1 :: ft :: cnt :: r =>
    if [m0, m1, m2, m3] = [0x43, 0x43, 0x46, 0x46] then
      match parseHeaders buf cnt r with
      | some parsed =>
        some { abiver := leVal2 a0 a1, filety := ft,
               sections := collectSections parsed }
      | none => none
    else none
  | _ => none

/-- The eight preamble bytes written by `encode_to` before the section
headers: magic `"CCFF"`, little-endian ABI version, file type, section
count (`len() as u8`). -/
def preambleBytes (cf : ContainerFile) : List Nat :=
  [0x43, 0x43, 0x46, 0x46] ++ u16le cf.abiver
    ++ [cf.filety % 256, cf.sections.length % 256]

/-- The sum of the per-section header sizes (`shdrs_size` in `encode_to`). -/
def hdrSizes (cf : ContainerFile) : Nat :=
  (cf.sections.map (fun p => Section.sizeof p.1)).sum

/-- Stated from the spec's layout (§4.2 step 5): the section header block,
given the data offset of the first section.  Each header is the section type,
the flags, the running data offset (a four-byte field: `u32le` keeps its value
modulo `2^32`), the data length, the name length and the name; the offset
advances by the data length from one section to the next — the cumulative
offset formula. -/
def headerBlock : List (List Nat × Section) → Nat → List Nat
  | [], _ => []
  | (name, s) :: rest, off =>
    [s.stype % 256] ++ u32le s.flags ++ u32le off ++ u32le s.data.length
      ++ [name.length % 256] ++ name ++ headerBlock rest (off + s.data.length)

/-- Stated from the spec's layout (§4.2 step 6): the section data blobs,
concatenated in container order. -/
def dataBlock : List (List Nat × Section) → List Nat
  | [] => []
  | (_, s) :: rest => s.data ++ dataBlock rest

/-- Scenario A of the spec (§8): `ContainerFile::new(1, 0)` with one section
named `"text"` (bytes `[0x74, 0x65, 0x78, 0x74]`), type 1, flags 0 and data
`[0, 1, 2, 3, 4]`. -/
def cfA : ContainerFile :=
  match (ContainerFile.new 1 0).add_section [0x74, 0x65, 0x78, 0x74]
      ((Section.new 1 0).set_data [0, 1, 2, 3, 4]).2 with
  | some (cf, _) => cf
  | none => ContainerFile.new 1 0

/-- Scenario B of the spec (§8): add `"a"` (byte `0x61`) then `"b"` (byte
`0x62`), remove `"a"`, add `"c"` (byte `0x63`), always with fresh default
sections. -/
def cfB : ContainerFile :=
  let c1 := match (ContainerFile.new 0 0).add_section [0x61] (Section.new 0 0)
    with
    | some (cf, _) => cf
    | none => ContainerFile.new 0 0
  let c2 := match c1.add_section [0x62] (Section.new 0 0) with
    | some (cf, _) => cf
    | none => c1
  let c3 := (c2.remove_section [0x61]).1
  match c3.add_section [0x63] (Section.new 0 0) with
  | some (cf, _) => cf
  | none => c3

/-- The `i`-th of 256 distinct two-byte section names, all printable ASCII:
`[0x21 + i / 16, 0x21 + i % 16]`. -/
def nameOf (i : Nat) : List Nat :=
  [0x21 + i / 16, 0x21 + i % 16]

/-- The first `k` of the names `nameOf 0`, `nameOf 1`, …. -/
def namesUpTo (k : Nat) : List (List Nat) :=
  (List.range k).map nameOf

/-- Perform a sequence of `add_section` calls with fresh default sections,
keeping the current container when a call panics (no call below does). -/
def addMany : ContainerFile → List (List Nat) → ContainerFile
  | cf, [] => cf
  | cf, n :: rest =>
    match cf.add_section n (Section.new 0 0) with
    | some (cf', _) => addMany cf' rest
    | none => cf

/-- A container reached from `ContainerFile::new(1, 0)` by 255 successful
`add_section` calls with the distinct names `nameOf 0 … nameOf 254`. -/
def cf255 : ContainerFile :=
  addMany (ContainerFile.new 1 0) (namesUpTo 255)

/-- A container reached from `ContainerFile::new(1, 0)` by 256 successful
`add_section` calls with the distinct names `nameOf 0 … nameOf 255`. -/
def cf256 : ContainerFile :=
  addMany (ContainerFile.new 1 0) (namesUpTo 256)

/-- The sections of a container annotated with the cumulative data offsets at
which `encode` places their data, the first at `off` — what `decode` is to
recover from an encoded buffer. -/
def annotate : List (List Nat × Section) → Nat → List (List Nat × Section)
  | [], _ => []
  | (n, s) :: rest, off =>
    (n, { s with offset := some off }) :: annotate rest (off + s.data.length)

/-- Inserting a key that is not yet in the map appends the binding at the end
and displaces nothing. -/
theorem mapInsert_of_not_mem (m : List (List Nat × Section)) (k : List Nat)
    (v : Section) (h : k ∉ m.map Prod.fst) :
    mapInsert m k v = (m ++ [(k, v)], none) := by
  induction m with
  | nil => rfl
  | cons p rest ih =>
    obtain ⟨k', v'⟩ := p
    simp only [List.map_cons, List.mem_cons, not_or] at h
    rw [mapInsert, if_neg (fun hx => h.1 hx.symm), ih h.2]
    simp

/-- The three validation checks of `add_section` passing, the call succeeds
and performs exactly the ordered-map insertion. -/
theorem add_section_of_valid (cf : ContainerFile) (name : List Nat)
    (s : Section) (h1 : name.length ≤ 255) (h2 : name.all graphicByte = true)
    (h3 : cf.sections.length ≤ 255) :
    cf.add_section name s =
      some ({ cf with sections := (mapInsert cf.sections name s).1 },
        (mapInsert cf.sections name s).2) := by
  simp [ContainerFile.add_section, ContainerFile.add_section_run, h1, h2, h3]

/-- Adding a list of valid, pairwise-distinct names that are all new to the
container (at most 256 in total) succeeds call after call and appends the
fresh sections in order. -/
theorem addMany_of_fresh (names : List (List Nat)) (cf : ContainerFile)
    (hval : ∀ n ∈ names, n.length ≤ 255 ∧ n.all graphicByte = true)
    (hnd : names.Nodup)
    (hdisj : ∀ n ∈ names, n ∉ cf.sections.map Prod.fst)
    (hlen : cf.sections.length + names.length ≤ 256) :
    addMany cf names =
      { cf with sections :=
          cf.sections ++ names.map (fun n => (n, Section.new 0 0)) } := by
  induction names generalizing cf with
  | nil => simp [addMany]
  | cons n rest ih =>
    have hv := hval n (List.mem_cons_self n rest)
    have hc : cf.sections.length ≤ 255 := by
      have := hlen
      simp only [List.length_cons] at this
      omega
    have hadd := add_section_of_valid cf n (Section.new 0 0) hv.1 hv.2 hc
    rw [mapInsert_of_not_mem cf.sections n (Section.new 0 0)
      (hdisj n (List.mem_cons_self n rest))] at hadd
    rw [addMany, hadd]
    dsimp only
    rw [ih { cf with sections := cf.sections ++ [(n, Section.new 0 0)] }
      (fun m hm => hval m (List.mem_cons_of_mem n hm))
      (List.Nodup.of_cons hnd)
      (by
        intro m hm
        simp only [List.map_append, List.mem_append, List.map_cons,
          List.map_nil, List.mem_singleton, not_or]
        constructor
        · exact hdisj m (List.mem_cons_of_mem n hm)
        · intro hx
          exact (List.nodup_cons.1 hnd).1 (hx ▸ hm)
      )
      (by
        simp only [List.length_append, List.length_cons, List.length_nil]
        simp only [List.length_cons] at hlen
        omega)]
    simp

/-- The first 256 generated names are valid `add_section` names: two bytes
long, both bytes in `0x21 ..= 0x7E`. -/
theorem namesUpTo_valid (k : Nat) (hk : k ≤ 256) :
    ∀ n ∈ namesUpTo k, n.length ≤ 255 ∧ n.all graphicByte = true := by
  intro n hn
  simp only [namesUpTo, List.mem_map, List.mem_range] at hn
  obtain ⟨i, hi, rfl⟩ := hn
  have hi' : i < 256 := lt_of_lt_of_le hi hk
  have hdiv : i / 16 < 16 := Nat.div_lt_of_lt_mul (by omega)
  have hmod : i % 16 < 16 := Nat.mod_lt _ (by norm_num)
  constructor
  · simp [nameOf]
  · simp only [nameOf, List.all_cons, List.all_nil, graphicByte,
      Bool.and_true, Bool.and_eq_true, decide_eq_true_eq]
    omega

/-- The generated names are pairwise distinct. -/
theorem namesUpTo_nodup (k : Nat) : (namesUpTo k).Nodup := by
  refine List.Nodup.map_on ?_ (List.nodup_range k)
  intro x _ y _ h
  simp only [nameOf, List.cons.injEq, and_true] at h
  omega

/-- A generated name with index at least `k` is not among the first `k`. -/
theorem nameOf_not_mem_namesUpTo (i k : Nat) (h : k ≤ i) :
    nameOf i ∉ namesUpTo k := by
  intro hmem
  simp only [namesUpTo, List.mem_map, List.mem_range] at hmem
  obtain ⟨j, hj, heq⟩ := hmem
  simp only [nameOf, List.cons.injEq, and_true] at heq
  omega

/-- The container built by the first 255 `add_section` calls: every call
succeeds and appends, so the sections are the 255 generated names in order. -/
theorem cf255_eq :
    cf255 = ⟨1, 0, (namesUpTo 255).map (fun n => (n, Section.new 0 0))⟩ := by
  rw [cf255, addMany_of_fresh (namesUpTo 255) (ContainerFile.new 1 0)
    (namesUpTo_valid 255 (by norm_num)) (namesUpTo_nodup 255)
    (by intro n _ hx; simp [ContainerFile.new] at hx)
    (by simp [ContainerFile.new, namesUpTo])]
  simp [ContainerFile.new]

/-- The container built by the first 256 `add_section` calls: every call
succeeds and appends — the 256th included — so the sections are the 256
generated names in order. -/
theorem cf256_eq :
    cf256 = ⟨1, 0, (namesUpTo 256).map (fun n => (n, Section.new 0 0))⟩ := by
  rw [cf256, addMany_of_fresh (namesUpTo 256) (ContainerFile.new 1 0)
    (namesUpTo_valid 256 le_rfl) (namesUpTo_nodup 256)
    (by intro n _ hx; simp [ContainerFile.new] at hx)
    (by simp [ContainerFile.new, namesUpTo])]
  simp [ContainerFile.new]

/-- A four-byte little-endian field only ever holds its value modulo `2^32`. -/
theorem u32le_mod (n : Nat) : u32le (n % 2 ^ 32) = u32le n := by
  simp only [u32le, List.cons.injEq, and_true]
  refine ⟨?_, ?_, ?_, ?_⟩ <;> omega

/-- The header/data fold of `encode_to`, run from any state whose offset is
already reduced modulo `2^32`, succeeds on small-data sections and appends the
spec's header block and data blob. -/
theorem encodeFold_eq (secs : List (List Nat × Section)) (buf blob : List Nat)
    (off : Nat) (h : ∀ p ∈ secs, p.2.data.length < 2 ^ 32 - 1) :
    encodeFold secs (buf, blob, off % 2 ^ 32) =
      some (buf ++ headerBlock secs off, blob ++ dataBlock secs,
        (off + (secs.map (fun p => p.2.data.length)).sum) % 2 ^ 32) := by
  induction secs generalizing buf blob off with
  | nil => simp [encodeFold, headerBlock, dataBlock]
  | cons p rest ih =>
    obtain ⟨name, s⟩ := p
    rw [encodeFold, if_pos (h (name, s) (List.mem_cons_self _ _))]
    rw [u32le_mod, Nat.mod_add_mod, ih _ _ _ (fun q hq => h q (List.mem_cons_of_mem _ hq))]
    simp only [headerBlock, dataBlock, List.append_assoc, List.map_cons,
      List.sum_cons, Option.some.injEq, Prod.mk.injEq]
    exact ⟨trivial, trivial, by omega⟩

/-- Whenever the fold of `encode_to` succeeds, every section's data was below
the `u32::MAX` assert bound. -/
theorem encodeFold_small (secs : List (List Nat × Section))
    (st : List Nat × List Nat × Nat) (out : List Nat × List Nat × Nat)
    (h : encodeFold secs st = some out) :
    ∀ p ∈ secs, p.2.data.length < 2 ^ 32 - 1 := by
  induction secs generalizing st with
  | nil => simp
  | cons p rest ih =>
    obtain ⟨name, s⟩ := p
    obtain ⟨buf, blob, off⟩ := st
    intro q hq
    by_cases hd : s.data.length < 2 ^ 32 - 1
    · rw [encodeFold, if_pos hd] at h
      rcases List.mem_cons.1 hq with hq | hq
      · subst hq; exact hd
      · exact ih _ h q hq
    · rw [encodeFold, if_neg hd] at h
      cases h

/-- Unfolding `encode_to` to the fold it runs: the buffer after the preamble
is the input buffer plus the preamble bytes, and the initial offset is the
preamble end plus the total header size, reduced modulo `2^32`. -/
theorem encode_to_eq_fold (cf : ContainerFile) (buf : List Nat) :
    cf.encode_to buf =
      (encodeFold cf.sections (buf ++ preambleBytes cf, [],
        (buf.length + 8 + hdrSizes cf) % 2 ^ 32)).map
        (fun st => st.1 ++ st.2.1) := by
  have harg : buf ++ [0x43, 0x43, 0x46, 0x46] ++ u16le cf.abiver
      ++ [cf.filety % 256] ++ [cf.sections.length % 256]
      = buf ++ preambleBytes cf := by
    simp [preambleBytes]
  have hlen : (buf ++ preambleBytes cf).length = buf.length + 8 := by
    simp [preambleBytes, u16le]
  rw [ContainerFile.encode_to]
  simp only [harg, hlen, hdrSizes]
  rcases hf : encodeFold cf.sections (buf ++ preambleBytes cf, [],
      (buf.length + 8 + (cf.sections.map (fun p => Section.sizeof p.1)).sum)
        % 2 ^ 32) with _ | ⟨⟨buf2, blob, offE⟩⟩ <;> simp [hf]

/-- Any successful `encode_to` call had all its section data below the
assert bound. -/
theorem encode_to_small (cf : ContainerFile) (buf out : List Nat)
    (h : cf.encode_to buf = some out) :
    ∀ p ∈ cf.sections, p.2.data.length < 2 ^ 32 - 1 := by
  rw [encode_to_eq_fold] at h
  rcases Option.map_eq_some'.1 h with ⟨st, hst, _⟩
  exact encodeFold_small _ _ _ hst

/-- The output of a successful `encode_to` call, laid out: the input buffer,
the preamble, the header block whose first data offset is the preamble end
plus the total header size, and the concatenated data blobs. -/
theorem encode_to_structure (cf : ContainerFile) (buf out : List Nat)
    (h : cf.encode_to buf = some out) :
    out = buf ++ preambleBytes cf
      ++ headerBlock cf.sections (buf.length + 8 + hdrSizes cf)
      ++ dataBlock cf.sections := by
  have hsmall := encode_to_small cf buf out h
  rw [encode_to_eq_fold,
    encodeFold_eq cf.sections (buf ++ preambleBytes cf) []
      (buf.length + 8 + hdrSizes cf) hsmall] at h
  simp only [Option.map_some', Option.some.injEq, List.nil_append] at h
  rw [← h]

/-- The header block is as long as the summed `Section::sizeof` headers. -/
theorem headerBlock_length (secs : List (List Nat × Section)) (off : Nat) :
    (headerBlock secs off).length
      = (secs.map (fun p => Section.sizeof p.1)).sum := by
  induction secs generalizing off with
  | nil => simp [headerBlock]
  | cons p rest ih =>
    obtain ⟨name, s⟩ := p
    simp only [headerBlock, List.map_cons, List.sum_cons, List.length_append,
      List.length_cons, List.length_nil, u32le, Section.sizeof, ih]

/-- The data blob is as long as the summed data lengths. -/
theorem dataBlock_length (secs : List (List Nat × Section)) :
    (dataBlock secs).length = (secs.map (fun p => p.2.data.length)).sum := by
  induction secs with
  | nil => simp [dataBlock]
  | cons p rest ih =>
    obtain ⟨name, s⟩ := p
    simp [dataBlock, ih]

/-- Decoding any buffer that starts with a valid preamble whose section-count
byte is `0` yields the empty container with that ABI version and file type,
whatever bytes follow. -/
theorem decode_zero_count (r : List Nat) :
    ContainerFile.decode ([0x43, 0x43, 0x46, 0x46, 1, 0, 0, 0] ++ r)
      = some (ContainerFile.new 1 0) := by
  rfl

/-- C10: for every section `s` and byte sequence `d`, `set_data` returns
exactly the data `s` held before the call; afterwards `get_data` returns `d`
while the type, flags and offset are unchanged. -/
theorem set_data_replaces (s : Section) (d : List Nat) :
    (s.set_data d).1 = s.get_data
    ∧ (s.set_data d).2.get_data = d
    ∧ (s.set_data d).2.stype = s.stype
    ∧ (s.set_data d).2.flags = s.flags
    ∧ (s.set_data d).2.get_offset = s.get_offset :=
  ⟨rfl, rfl, rfl, rfl, rfl⟩

/-- C7: after `add_section "a"`, `add_section "b"`, `remove_section "a"`,
`add_section "c"` on an empty container, the iteration order of the sections
is exactly `["b", "c"]`: removal preserves the relative order of the
survivors and a new name is appended at the end. -/
theorem scenarioB_order : cfB.sections.map Prod.fst = [[0x62], [0x63]] := by
  decide

/-- C4 counterexample: for scenario A (`new(1, 0)` plus one section `"text"`
of type 1, flags 0 and five data bytes), `size()` returns 31 — the spec's own
sum `4+2+1+1+(1+4+4+4+1+4)+5` — and `encode()` produces a 31-byte buffer, so
the claimed value 32 is wrong. -/
theorem scenarioA_size_ne_32 :
    cfA.size = 31 ∧ (cfA.encode).map List.length = some 31
      ∧ (31 : Nat) ≠ 32 := by
  decide

/-- C4 (amended): for scenario A, `size()` returns 31, and `encode()`
produces a 31-byte buffer whose first 8 bytes are `C C F F 01 00 00 01`
(magic, ABI version 1 little-endian, file type 0, section count 1). -/
theorem scenarioA_layout :
    cfA.size = 31
    ∧ (cfA.encode).map List.length = some 31
    ∧ (cfA.encode).map (List.take 8)
      = some [0x43, 0x43, 0x46, 0x46, 0x01, 0x00, 0x00, 0x01] := by
  decide

/-- C6: `add_section` rejects every name of length 256 or more and every name
with a byte outside `0x21 ..= 0x7E`; when the section-count check passes it
accepts every name of at most 255 bytes (255-byte names and the empty name
included) whose bytes all lie in that range. -/
theorem add_section_name_validation (cf : ContainerFile) (name : List Nat)
    (s : Section) :
    (256 ≤ name.length → cf.add_section name s = none)
    ∧ ((∃ b ∈ name, b < 0x21 ∨ 0x7E < b) → cf.add_section name s = none)
    ∧ (name.length ≤ 255 → (∀ b ∈ name, 0x21 ≤ b ∧ b ≤ 0x7E) →
        cf.sections.length ≤ 255 → (cf.add_section name s).isSome = true) := by
  refine ⟨?_, ?_, ?_⟩
  · intro h
    have h' : ¬ name.length ≤ 255 := by omega
    simp [ContainerFile.add_section, ContainerFile.add_section_run, h']
  · intro h
    by_cases hl : name.length ≤ 255
    · have h' : ¬ name.all graphicByte = true := by
        obtain ⟨b, hb, hout⟩ := h
        simp only [List.all_eq_true, not_forall]
        refine ⟨b, hb, ?_⟩
        simp only [graphicByte, Bool.and_eq_true, decide_eq_true_eq]
        omega
      simp [ContainerFile.add_section, ContainerFile.add_section_run, hl, h']
    · simp [ContainerFile.add_section, ContainerFile.add_section_run, hl]
  · intro h1 h2 h3
    have hall : name.all graphicByte = true := by
      simp only [List.all_eq_true]
      intro b hb
      simp only [graphicByte, Bool.and_eq_true, decide_eq_true_eq]
      exact (h2 b hb)
    rw [add_section_of_valid cf name s h1 hall h3]
    rfl

/-- Witness for C6: a 256-byte name and the name `[0x20]` are rejected on a
fresh container, while a 255-byte printable name and the empty name are
accepted. -/
theorem add_section_name_validation_witness :
    (ContainerFile.new 0 0).add_section (List.replicate 256 0x41)
      (Section.new 0 0) = none
    ∧ (ContainerFile.new 0 0).add_section [0x20] (Section.new 0 0) = none
    ∧ ((ContainerFile.new 0 0).add_section (List.replicate 255 0x41)
        (Section.new 0 0)).isSome = true
    ∧ ((ContainerFile.new 0 0).add_section [] (Section.new 0 0)).isSome
      = true :=
  ⟨(add_section_name_validation _ _ _).1
     (by simp only [List.length_replicate, le_refl]),
   (add_section_name_validation _ _ _).2.1
     ⟨0x20, by simp, by norm_num⟩,
   (add_section_name_validation _ _ _).2.2
     (by simp only [List.length_replicate]; omega)
     (fun b hb => by
       have := List.eq_of_mem_replicate hb
       subst this
       exact ⟨by norm_num, by norm_num⟩)
     (by simp [ContainerFile.new]),
   (add_section_name_validation _ _ _).2.2 (by simp)
     (fun b hb => by cases hb)
     (by simp [ContainerFile.new])⟩

/-- C9: whenever `add_section` rejects, the rejection comes from the asserts
that run before the single mutating insert, so the container observable after
the failed call is exactly the container before it — same ABI version, file
type and section map. -/
theorem add_section_rejection_atomic (cf : ContainerFile) (name : List Nat)
    (s : Section) (h : (cf.add_section_run name s).2 = none) :
    (cf.add_section_run name s).1 = cf
    ∧ (cf.add_section_run name s).1.abiver = cf.abiver
    ∧ (cf.add_section_run name s).1.filety = cf.filety
    ∧ (cf.add_section_run name s).1.sections = cf.sections := by
  simp only [ContainerFile.add_section_run] at h ⊢
  split_ifs at h ⊢ <;> simp_all

/-- Witness for C9: the rejected call with name `[0x20]` leaves a fresh
`new(7, 3)` container untouched. -/
theorem add_section_rejection_atomic_witness :
    ((ContainerFile.new 7 3).add_section_run [0x20] (Section.new 0 0)).1
      = ContainerFile.new 7 3 :=
  (add_section_rejection_atomic (ContainerFile.new 7 3) [0x20]
    (Section.new 0 0) (by decide)).1

/-- C2: for every container, a successful `encode` produces exactly `size()`
bytes. -/
theorem size_eq_encode_length (cf : ContainerFile) (out : List Nat)
    (h : cf.encode = some out) : out.length = cf.size := by
  rw [ContainerFile.encode] at h
  rw [encode_to_structure cf [] out h]
  simp [ContainerFile.size, preambleBytes, u16le, headerBlock_length,
    dataBlock_length, hdrSizes]
  omega

/-- Witness for C2: scenario A's 31-byte encoding has length `size()`. -/
theorem size_eq_encode_length_witness :
    ([67, 67, 70, 70, 1, 0, 0, 1, 1, 0, 0, 0, 0, 26, 0, 0, 0, 5, 0, 0, 0, 4,
      116, 101, 120, 116, 0, 1, 2, 3, 4] : List Nat).length = cfA.size :=
  size_eq_encode_length cfA _ (by decide)

/-- C3 counterexample: in scenario A encoded into an empty buffer, the first
(only) section's four-byte little-endian offset field holds 26 — where its
data does begin — while the claim's formula `initial_buffer_length + Σ
per-section header sizes` gives `0 + 18 = 18`: the formula misses the 8
preamble bytes. -/
theorem encode_offset_claim_false :
    (cfA.encode_to []).map (fun out => readU32LE out (8 + 5)) = some 26
    ∧ (List.length ([] : List Nat)) + hdrSizes cfA = 18
    ∧ (26 : Nat) ≠ 18 := by
  decide

/-- C3 (amended): a successful `encode_to` produces the input buffer followed
by the preamble, the header block and the data blobs, where the header
block's four-byte offset fields carry the cumulative offsets starting at
`initial_buffer_length + 8 + Σ per-section header sizes` (the 8 preamble
bytes included), each reduced modulo `2^32` by the four-byte field; section
`i + 1`'s offset is section `i`'s offset plus section `i`'s data length. -/
theorem encode_to_offset_layout (cf : ContainerFile) (buf out : List Nat)
    (h : cf.encode_to buf = some out) :
    out = buf ++ preambleBytes cf
      ++ headerBlock cf.sections (buf.length + 8 + hdrSizes cf)
      ++ dataBlock cf.sections :=
  encode_to_structure cf buf out h

/-- Witness for C3: scenario A's encoding into an empty buffer, with the
offset field holding `0 + 8 + 18 = 26`. -/
theorem encode_to_offset_layout_witness :
    ([67, 67, 70, 70, 1, 0, 0, 1, 1, 0, 0, 0, 0, 26, 0, 0, 0, 5, 0, 0, 0, 4,
      116, 101, 120, 116, 0, 1, 2, 3, 4] : List Nat)
      = [] ++ preambleBytes cfA
        ++ headerBlock cfA.sections ((List.length ([] : List Nat)) + 8
            + hdrSizes cfA)
        ++ dataBlock cfA.sections :=
  encode_to_offset_layout cfA [] _ (by decide)

/-- C8: `encode_to` appends — the bytes already in the buffer are unchanged
and remain the prefix of the output, and the appended suffix is exactly the
container's `size()`-byte serialized form. -/
theorem encode_to_appends (cf : ContainerFile) (buf out : List Nat)
    (h : cf.encode_to buf = some out) :
    out.take buf.length = buf ∧ out.length = buf.length + cf.size := by
  have hs := encode_to_structure cf buf out h
  constructor
  · rw [hs]
    simp only [List.append_assoc]
    exact List.take_left buf _
  · rw [hs]
    simp [ContainerFile.size, preambleBytes, u16le, headerBlock_length,
      dataBlock_length, hdrSizes]
    omega

/-- Witness for C8: scenario A encoded after two bytes `[9, 9]` keeps them as
the prefix, followed by the 31 serialized bytes. -/
theorem encode_to_appends_witness :
    ([9, 9, 67, 67, 70, 70, 1, 0, 0, 1, 1, 0, 0, 0, 0, 28, 0, 0, 0, 5, 0, 0,
      0, 4, 116, 101, 120, 116, 0, 1, 2, 3, 4] : List Nat).take
        (([9, 9] : List Nat).length) = [9, 9]
    ∧ ([9, 9, 67, 67, 70, 70, 1, 0, 0, 1, 1, 0, 0, 0, 0, 28, 0, 0, 0, 5, 0,
        0, 0, 4, 116, 101, 120, 116, 0, 1, 2, 3, 4] : List Nat).length
      = ([9, 9] : List Nat).length + cfA.size :=
  encode_to_appends cfA [9, 9] _ (by decide)

/-- C5 (code bug): a container holding 255 sections, reached from
`ContainerFile::new` through 255 successful `add_section` calls, accepts a
256th distinct name — the assert `sections.len() <= 255` runs before the
insert, so it only rejects the 257th — leaving 256 sections, contrary to the
documented bound of 255. -/
theorem add_section_at_255_succeeds :
    cf255.sections.length = 255
    ∧ (cf255.add_section (nameOf 255) (Section.new 0 0)).map
        (fun p => p.1.sections.length) = some 256 := by
  have h := cf255_eq
  have hl255 : cf255.sections.length = 255 := by
    rw [h]
    simp [namesUpTo]
  refine ⟨hl255, ?_⟩
  have hkeys : cf255.sections.map Prod.fst = namesUpTo 255 := by
    rw [h]
    simp only [List.map_map]
    have hc : (Prod.fst ∘ fun n : List Nat => (n, Section.new 0 0)) = id := rfl
    rw [hc, List.map_id]
  have hnotmem : nameOf 255 ∉ cf255.sections.map Prod.fst := by
    rw [hkeys]
    exact nameOf_not_mem_namesUpTo 255 255 le_rfl
  rw [add_section_of_valid cf255 (nameOf 255) (Section.new 0 0)
      (by simp [nameOf]) (by decide) (le_of_eq hl255),
    mapInsert_of_not_mem _ _ _ hnotmem]
  simp [hl255]

/-- C1 (code bug): the 256-section container reachable through successful
`add_section` calls breaks the round trip — `encode` truncates the count byte
(`256 as u8 == 0`), so `decode(encode(cf))` succeeds but returns the *empty*
container `new(1, 0)` instead of one with the same 256 sections. -/
theorem encode_decode_256_sections :
    cf256.sections.length = 256
    ∧ cf256.encode.bind ContainerFile.decode = some (ContainerFile.new 1 0) := by
  have h := cf256_eq
  have hlen : cf256.sections.length = 256 := by
    rw [h]
    simp [namesUpTo]
  refine ⟨hlen, ?_⟩
  have hsmall : ∀ p ∈ cf256.sections, p.2.data.length < 2 ^ 32 - 1 := by
    rw [h]
    intro p hp
    simp only [List.mem_map] at hp
    obtain ⟨n, _, rfl⟩ := hp
    simp [Section.new]
  have hpre : preambleBytes cf256 = [0x43, 0x43, 0x46, 0x46, 1, 0, 0, 0] := by
    rw [h]
    simp [preambleBytes, u16le, namesUpTo]
  have henc : cf256.encode
      = some (([] : List Nat) ++ preambleBytes cf256
          ++ headerBlock cf256.sections (([] : List Nat).length + 8
              + hdrSizes cf256)
          ++ dataBlock cf256.sections) := by
    rw [ContainerFile.encode, encode_to_eq_fold,
      encodeFold_eq cf256.sections (([] : List Nat) ++ preambleBytes cf256) []
        (([] : List Nat).length + 8 + hdrSizes cf256) hsmall]
    simp [List.append_assoc]
  rw [henc]
  have hout : (([] : List Nat) ++ preambleBytes cf256
      ++ headerBlock cf256.sections (([] : List Nat).length + 8
          + hdrSizes cf256)
      ++ dataBlock cf256.sections)
      = [0x43, 0x43, 0x46, 0x46, 1, 0, 0, 0]
        ++ (headerBlock cf256.sections (([] : List Nat).length + 8
              + hdrSizes cf256)
            ++ dataBlock cf256.sections) := by
    rw [hpre]
    simp [List.append_assoc]
  rw [Option.some_bind, hout, decode_zero_count]

/-- Reading back four little-endian bytes of a value below `2^32` recovers
the value. -/
theorem leVal4_bytes (x : Nat) (h : x < 2 ^ 32) :
    leVal4 (x % 256) (x / 256 % 256) (x / 256 ^ 2 % 256) (x / 256 ^ 3 % 256)
      = x := by
  simp only [leVal4]
  omega

/-- Reading back two little-endian bytes of a value below `2^16` recovers
the value. -/
theorem leVal2_bytes (x : Nat) (h : x < 2 ^ 16) :
    leVal2 (x % 256) (x / 256 % 256) = x := by
  simp only [leVal2]
  omega

/-- Annotation does not change the section names. -/
theorem annotate_map_fst (secs : List (List Nat × Section)) (off : Nat) :
    (annotate secs off).map Prod.fst = secs.map Prod.fst := by
  induction secs generalizing off with
  | nil => rfl
  | cons p rest ih =>
    obtain ⟨n, s⟩ := p
    simp [annotate, ih]

/-- The header scan inverts the header block: parsing `secs.length` headers
from the block written for `secs` (whatever bytes follow it) recovers every
name, type, flag set and data slice, with each section's offset annotated. -/
theorem parseHeaders_of_headerBlock (secs : List (List Nat × Section))
    (buf : List Nat) :
    ∀ (tail : List Nat) (off : Nat),
    (∀ p ∈ secs, p.1.length ≤ 255 ∧ p.2.stype < 256
      ∧ p.2.flags < 2 ^ 32 ∧ p.2.data.length < 2 ^ 32 - 1) →
    buf.drop off = dataBlock secs →
    off + (secs.map (fun p => p.2.data.length)).sum ≤ buf.length →
    buf.length < 2 ^ 32 →
    parseHeaders buf secs.length (headerBlock secs off ++ tail)
      = some (annotate secs off) := by
  induction secs with
  | nil => intro tail off _ _ _ _; rfl
  | cons p rest ih =>
    intro tail off hgood hdata hle hfit
    obtain ⟨n, s⟩ := p
    have hg := hgood (n, s) (List.mem_cons_self _ _)
    dsimp only at hg
    obtain ⟨hn255, hst, hfl, hd32⟩ := hg
    have hgood' := fun q hq => hgood q (List.mem_cons_of_mem _ hq)
    have hsum : off + (s.data.length
        + (rest.map (fun p => p.2.data.length)).sum) ≤ buf.length := by
      simpa using hle
    have hoff32 : off < 2 ^ 32 := by omega
    have hnmod : n.length % 256 = n.length := Nat.mod_eq_of_lt (by omega)
    have hstmod : s.stype % 256 = s.stype := Nat.mod_eq_of_lt hst
    have hdrop : buf.drop off = s.data ++ dataBlock rest := by
      rw [hdata]
      rfl
    have hdata2 : buf.drop (off + s.data.length) = dataBlock rest := by
      have h1 : (buf.drop off).drop s.data.length
          = buf.drop (off + s.data.length) := by
        rw [List.drop_drop, Nat.add_comm]
      rw [← h1, hdrop, List.drop_left]
    simp only [headerBlock, u32le, List.length_cons, List.cons_append,
      List.nil_append, List.append_assoc, List.singleton_append]
    simp only [parseHeaders]
    rw [hnmod, hstmod, leVal4_bytes off hoff32,
      leVal4_bytes s.data.length (by omega), leVal4_bytes s.flags hfl]
    rw [if_pos (show n.length ≤ (n ++ (headerBlock rest
        (off + s.data.length) ++ tail)).length by simp)]
    rw [if_pos (show off + s.data.length ≤ buf.length by omega)]
    rw [List.take_left, List.drop_left]
    rw [ih tail (off + s.data.length) hgood' hdata2 (by omega) hfit]
    simp only [Option.map_some', Option.some.injEq]
    rw [hdrop, List.take_left]
    rfl

/-- Folding fresh, pairwise-distinct bindings into the ordered map appends
them in order. -/
theorem foldl_mapInsert_fresh (parsed : List (List Nat × Section)) :
    ∀ acc : List (List Nat × Section),
    (∀ p ∈ parsed, p.1 ∉ acc.map Prod.fst) →
    (parsed.map Prod.fst).Nodup →
    parsed.foldl (fun a q => (mapInsert a q.1 q.2).1) acc = acc ++ parsed := by
  induction parsed with
  | nil => intro acc _ _; simp
  | cons p rest ih =>
    intro acc hdisj hnd
    obtain ⟨n, s⟩ := p
    simp only [List.foldl_cons]
    have hnd1 : n ∉ rest.map Prod.fst ∧ (rest.map Prod.fst).Nodup := by
      simp only [List.map_cons, List.nodup_cons] at hnd
      exact hnd
    have hins : (mapInsert acc n s).1 = acc ++ [(n, s)] := by
      rw [mapInsert_of_not_mem acc n s (hdisj (n, s) (List.mem_cons_self _ _))]
    rw [hins, ih (acc ++ [(n, s)])
      (by
        intro q hq
        simp only [List.map_append, List.mem_append, List.map_cons,
          List.map_nil, List.mem_singleton, not_or]
        constructor
        · exact hdisj q (List.mem_cons_of_mem _ hq)
        · intro hx
          exact hnd1.1 (hx ▸ List.mem_map_of_mem Prod.fst hq))
      hnd1.2]
    simp

/-- Reconstructing the ordered map from parsed sections with pairwise
distinct names returns them unchanged, in order. -/
theorem collectSections_of_nodup (parsed : List (List Nat × Section))
    (hnd : (parsed.map Prod.fst).Nodup) :
    collectSections parsed = parsed := by
  rw [collectSections, foldl_mapInsert_fresh parsed [] (by simp) hnd]
  simp

/-- Decoding a buffer that starts with a container's preamble (ABI version
below `2^16`, file type a byte, at most 255 sections) parses that ABI
version, file type and section count back out and scans the following bytes
for the headers. -/
theorem decode_of_preamble (cf : ContainerFile) (X : List Nat)
    (habi : cf.abiver < 2 ^ 16) (hft : cf.filety < 256)
    (hcount : cf.sections.length ≤ 255) :
    ContainerFile.decode (preambleBytes cf ++ X)
      = match parseHeaders (preambleBytes cf ++ X) cf.sections.length X with
        | some parsed =>
          some ⟨cf.abiver, cf.filety, collectSections parsed⟩
        | none => none := by
  have hshape : preambleBytes cf ++ X
      = 0x43 :: 0x43 :: 0x46 :: 0x46 :: (cf.abiver % 256)
        :: (cf.abiver / 256 % 256) :: (cf.filety % 256)
        :: (cf.sections.length % 256) :: X := by
    simp [preambleBytes, u16le]
  rw [hshape]
  simp only [ContainerFile.decode, if_true]
  rw [Nat.mod_eq_of_lt (show cf.sections.length < 256 by omega),
    Nat.mod_eq_of_lt hft, leVal2_bytes cf.abiver habi]

/-- The spec's round-trip property, for containers inside the documented
bounds: encoding a container with at most 255 distinctly-named sections and
decoding the result restores the ABI version, the file type and every section
— same names, same order, same types, flags and data — with each section's
offset now `some` of the cumulative offset at which its data was written. -/
theorem decode_encode_roundtrip (cf : ContainerFile)
    (habi : cf.abiver < 2 ^ 16) (hft : cf.filety < 256)
    (hcount : cf.sections.length ≤ 255)
    (hnodup : (cf.sections.map Prod.fst).Nodup)
    (hgood : ∀ p ∈ cf.sections, p.1.length ≤ 255 ∧ p.2.stype < 256
      ∧ p.2.flags < 2 ^ 32 ∧ p.2.data.length < 2 ^ 32 - 1)
    (hfit : cf.size < 2 ^ 32) :
    cf.encode.bind ContainerFile.decode
      = some ⟨cf.abiver, cf.filety,
          annotate cf.sections (8 + hdrSizes cf)⟩ := by
  have hsmall : ∀ p ∈ cf.sections, p.2.data.length < 2 ^ 32 - 1 :=
    fun p hp => (hgood p hp).2.2.2
  have henc : cf.encode
      = some (preambleBytes cf
          ++ (headerBlock cf.sections (8 + hdrSizes cf)
              ++ dataBlock cf.sections)) := by
    rw [ContainerFile.encode, encode_to_eq_fold,
      encodeFold_eq cf.sections (([] : List Nat) ++ preambleBytes cf) []
        (([] : List Nat).length + 8 + hdrSizes cf) hsmall]
    simp [List.append_assoc]
  have hprelen : (preambleBytes cf).length = 8 := by
    simp [preambleBytes, u16le]
  have hhblen : (headerBlock cf.sections (8 + hdrSizes cf)).length
      = hdrSizes cf := headerBlock_length _ _
  have hlen : (preambleBytes cf
      ++ (headerBlock cf.sections (8 + hdrSizes cf)
          ++ dataBlock cf.sections)).length
      = 8 + hdrSizes cf
        + (cf.sections.map (fun p => p.2.data.length)).sum := by
    simp [hprelen, hhblen, dataBlock_length]
    omega
  have hsize : cf.size = 8 + hdrSizes cf
      + (cf.sections.map (fun p => p.2.data.length)).sum := by
    simp [ContainerFile.size, hdrSizes]
  have hdata : (preambleBytes cf
      ++ (headerBlock cf.sections (8 + hdrSizes cf)
          ++ dataBlock cf.sections)).drop (8 + hdrSizes cf)
      = dataBlock cf.sections := by
    rw [show preambleBytes cf
        ++ (headerBlock cf.sections (8 + hdrSizes cf)
            ++ dataBlock cf.sections)
        = (preambleBytes cf ++ headerBlock cf.sections (8 + hdrSizes cf))
          ++ dataBlock cf.sections from by simp [List.append_assoc]]
    rw [List.drop_left' (by simp [hprelen, hhblen])]
  rw [henc, Option.some_bind,
    decode_of_preamble cf
      (headerBlock cf.sections (8 + hdrSizes cf) ++ dataBlock cf.sections)
      habi hft hcount,
    parseHeaders_of_headerBlock cf.sections
      (preambleBytes cf
        ++ (headerBlock cf.sections (8 + hdrSizes cf)
            ++ dataBlock cf.sections))
      (dataBlock cf.sections) (8 + hdrSizes cf) hgood hdata
      (by rw [hlen])
      (by rw [hlen, ← hsize]; omega)]
  dsimp only
  rw [collectSections_of_nodup _ (by rw [annotate_map_fst]; exact hnodup)]

end Ccff
